import Mathlib

/-!
Verification of the similarity-graph engine of the DS210 video-game project.

The Rust program keeps an undirected similarity graph in
`adjList : HashMap<String, HashSet<String>>`, built incrementally from CSV
records, and queries it with BFS, a degree histogram and degree centrality.
We embed the state as association lists (`List (String × List String)`);
key/element iteration order of the hash containers is unspecified in the
source, and every property below is stated through lookups, membership and
sums, which are order-independent.
-/

set_option autoImplicit false

namespace DS210

/-- Lookup in an association list; models `HashMap::get`. -/
def lookupA {κ β : Type} [DecidableEq κ] : List (κ × β) → κ → Option β
  | [], _ => none
  | p :: ps, k => if p.1 = k then some p.2 else lookupA ps k

/-- Insert-or-replace in an association list; models `HashMap::insert` and
`entry(k).or_insert(v0)` followed by a value update. -/
def setA {κ β : Type} [DecidableEq κ] : List (κ × β) → κ → β → List (κ × β)
  | [], k, v => [(k, v)]
  | p :: ps, k, v => if p.1 = k then (k, v) :: ps else p :: setA ps k v

/-- `HashSet::insert`: add an element if it is not already present. -/
def insertNb (s : List String) (x : String) : List String :=
  if x ∈ s then s else s ++ [x]

/-- The graph state: `adjList: HashMap<String, HashSet<String>>`. -/
structure GameGraph where
  adjList : List (String × List String)
deriving DecidableEq

/-- `GameGraph::new`. -/
def GameGraph.new : GameGraph := ⟨[]⟩

/-- `GameGraph::addEdge`: `adjList.entry(game1).or_insert(∅).insert(game2)`
then the same with the roles swapped. -/
def GameGraph.addEdge (g : GameGraph) (game1 game2 : String) : GameGraph :=
  let l1 := setA g.adjList game1 (insertNb ((lookupA g.adjList game1).getD []) game2)
  ⟨setA l1 game2 (insertNb ((lookupA l1 game2).getD []) game1)⟩

/-- The adjacency set of a node (empty when the node has no entry). -/
def GameGraph.adjOf (g : GameGraph) (n : String) : List String :=
  (lookupA g.adjList n).getD []

/-- The node set: the keys of `adjList`. -/
def GameGraph.nodes (g : GameGraph) : List String :=
  g.adjList.map Prod.fst

/-- Edge relation as observed through the adjacency view. -/
def Edge (g : GameGraph) (a b : String) : Prop :=
  b ∈ g.adjOf a

instance (g : GameGraph) (a b : String) : Decidable (Edge g a b) := by
  unfold Edge; infer_instance

/-- Inner loop of `GameGraph::bfs`: walk the neighbor set of the current
node, recording distance `d1 = distances[current] + 1` for each neighbor not
yet in `distances` and enqueueing it. -/
def bfsInner (d1 : Nat) :
    List String → List (String × Nat) → List String → List (String × Nat) × List String
  | [], dist, queue => (dist, queue)
  | nb :: rest, dist, queue =>
    match lookupA dist nb with
    | some _ => bfsInner d1 rest dist queue
    | none => bfsInner d1 rest (setA dist nb d1) (queue ++ [nb])

/-- Outer loop of `GameGraph::bfs`, with explicit fuel.  Each iteration pops
one queue element; `bfs` below supplies fuel that provably exceeds the total
number of enqueue operations, so the fuel-exhausted branch is never taken.
The `lookupA dist current = none` branch mirrors the fact that the Rust code
indexes `distances[&current]`, which is only defined because every queued
node already has a distance. -/
def bfsAux (adj : List (String × List String)) :
    Nat → List (String × Nat) → List String → List (String × Nat)
  | 0, dist, _ => dist
  | _ + 1, dist, [] => dist
  | fuel + 1, dist, current :: rest =>
    match lookupA adj current with
    | none => bfsAux adj fuel dist rest
    | some nbs =>
      match lookupA dist current with
      | none => dist
      | some d =>
        let p := bfsInner (d + 1) nbs dist rest
        bfsAux adj fuel p.1 p.2

/-- Total length of all neighbor sets; an upper bound on the number of
distinct non-start nodes BFS can ever discover. -/
def totalNbLen (adj : List (String × List String)) : Nat :=
  (adj.map (fun p => p.2.length)).sum

/-- `GameGraph::bfs`: seed `distances = {start ↦ 0}`, `queue = [start]`,
then run the worklist loop to completion. -/
def GameGraph.bfs (g : GameGraph) (start : String) : List (String × Nat) :=
  bfsAux g.adjList (totalNbLen g.adjList + 1) [(start, 0)] [start]

/-- `GameGraph::degreeDistribution`: histogram over the neighbor-set sizes,
`*distribution.entry(degree).or_insert(0) += 1`. -/
def GameGraph.degreeDistribution (g : GameGraph) : List (Nat × Nat) :=
  g.adjList.foldl
    (fun dist p => setA dist p.2.length ((lookupA dist p.2.length).getD 0 + 1)) []

/-- `GameGraph::degreeCentrality`: each node mapped to its neighbor count. -/
def GameGraph.degreeCentrality (g : GameGraph) : List (String × Nat) :=
  g.adjList.foldl (fun c p => setA c p.1 p.2.length) []

/-- A parsed CSV record, `struct VideoGame`.  The score type is abstract:
the engine never reads the scores, only carries them. -/
structure VideoGame (α : Type) where
  name : String
  genre : String
  publisher : String
  criticScore : Option α
  userScore : Option α

/-- `record.get(0).unwrap_or("")`: the name field of a row. -/
def rowName (r : List String) : String := (r.get? 0).getD ""

/-- `record.get(3).unwrap_or("")`: the genre field of a row. -/
def rowGenre (r : List String) : String := (r.get? 3).getD ""

/-- `record.get(4).unwrap_or("")`: the publisher field of a row. -/
def rowPublisher (r : List String) : String := (r.get? 4).getD ""

/-- The similarity rule of the build loop: same genre or same publisher,
exact case-sensitive string equality (empty equals empty). -/
def similarRows (r1 r2 : List String) : Prop :=
  rowGenre r1 = rowGenre r2 ∨ rowPublisher r1 = rowPublisher r2

instance (r1 r2 : List String) : Decidable (similarRows r1 r2) := by
  unfold similarRows; infer_instance

/-- Field extraction of the build loop: `record.get(i).unwrap_or("")` for the
string fields, `record.get(i).and_then(|s| s.parse().ok())` for the scores,
with `parse` the (abstract) numeric parser. -/
def mkVideoGame {α : Type} (parse : String → Option α) (r : List String) : VideoGame α :=
  { name := rowName r
  , genre := rowGenre r
  , publisher := rowPublisher r
  , criticScore := (r.get? 6).bind parse
  , userScore := (r.get? 7).bind parse }

theorem mkVideoGame_name {α : Type} (parse : String → Option α) (r : List String) :
    (mkVideoGame parse r).name = rowName r := rfl

theorem mkVideoGame_genre {α : Type} (parse : String → Option α) (r : List String) :
    (mkVideoGame parse r).genre = rowGenre r := rfl

theorem mkVideoGame_publisher {α : Type} (parse : String → Option α) (r : List String) :
    (mkVideoGame parse r).publisher = rowPublisher r := rfl

/-- One iteration of the `buildGraph` loop: insert the record into `games`,
then compare it against every key of the updated map other than its own name
and add an edge for each genre or publisher match. -/
def buildStep {α : Type} (parse : String → Option α)
    (st : List (String × VideoGame α) × GameGraph) (r : List String) :
    List (String × VideoGame α) × GameGraph :=
  let game := mkVideoGame parse r
  let games := setA st.1 game.name game
  let graph := games.foldl
    (fun gr p =>
      if p.1 ≠ game.name ∧ (p.2.genre = game.genre ∨ p.2.publisher = game.publisher)
      then gr.addEdge game.name p.1
      else gr)
    st.2
  (games, graph)

/-- `buildGraph` over an already-decoded sequence of rows (CSV reading is an
external collaborator; a row is the list of its string fields). -/
def buildGraphL {α : Type} (parse : String → Option α) (rows : List (List String)) :
    List (String × VideoGame α) × GameGraph :=
  rows.foldl (buildStep parse) ([], GameGraph.new)

/-- Paths of a given edge count from `s`, following the adjacency view. -/
inductive PathN (adj : List (String × List String)) (s : String) : String → Nat → Prop
  | refl : PathN adj s s 0
  | step {u v : String} {n : Nat} :
      PathN adj s u n → v ∈ (lookupA adj u).getD [] → PathN adj s v (n + 1)

/-- `n` is the minimum edge-count distance from `s` to `v`. -/
def IsMinDist (adj : List (String × List String)) (s v : String) (n : Nat) : Prop :=
  PathN adj s v n ∧ ∀ m, PathN adj s v m → n ≤ m

/-! ### Association-list lemmas -/

theorem lookupA_setA_self {κ β : Type} [DecidableEq κ] (l : List (κ × β)) (k : κ) (v : β) :
    lookupA (setA l k v) k = some v := by
  induction l with
  | nil => simp [setA, lookupA]
  | cons p ps ih =>
    by_cases h : p.1 = k
    · simp [setA, h, lookupA]
    · simp [setA, h, lookupA, ih]

theorem lookupA_setA_ne {κ β : Type} [DecidableEq κ] (l : List (κ × β)) (k k' : κ) (v : β)
    (h : k' ≠ k) : lookupA (setA l k v) k' = lookupA l k' := by
  have hk : k ≠ k' := fun e => h e.symm
  induction l with
  | nil => simp [setA, lookupA, hk]
  | cons p ps ih =>
    by_cases hp : p.1 = k
    · subst hp
      simp [setA, lookupA, hk]
    · simp only [setA, if_neg hp, lookupA]
      by_cases hp' : p.1 = k'
      · simp [hp']
      · simp [hp', ih]

theorem map_fst_setA {κ β : Type} [DecidableEq κ] (l : List (κ × β)) (k : κ) (v : β) :
    (setA l k v).map Prod.fst =
      if k ∈ l.map Prod.fst then l.map Prod.fst else l.map Prod.fst ++ [k] := by
  induction l with
  | nil => simp [setA]
  | cons p ps ih =>
    by_cases h : p.1 = k
    · simp [setA, h]
    · have hk : k ≠ p.1 := fun e => h e.symm
      simp only [setA, if_neg h, List.map_cons, ih]
      have hiff : (k ∈ p.1 :: ps.map Prod.fst) ↔ k ∈ ps.map Prod.fst := by
        simp [hk]
      by_cases hm : k ∈ ps.map Prod.fst
      · simp [hm, hiff]
      · simp [hm, hiff]

theorem mem_map_fst_setA {κ β : Type} [DecidableEq κ] (l : List (κ × β)) (k x : κ) (v : β) :
    x ∈ (setA l k v).map Prod.fst ↔ x ∈ l.map Prod.fst ∨ x = k := by
  rw [map_fst_setA]
  by_cases hm : k ∈ l.map Prod.fst
  · simp only [if_pos hm]
    exact ⟨Or.inl, fun hx => hx.elim id (fun e => e ▸ hm)⟩
  · simp [if_neg hm]

theorem nodup_map_fst_setA {κ β : Type} [DecidableEq κ] (l : List (κ × β)) (k : κ) (v : β)
    (h : (l.map Prod.fst).Nodup) : ((setA l k v).map Prod.fst).Nodup := by
  rw [map_fst_setA]
  by_cases hm : k ∈ l.map Prod.fst
  · simpa [if_pos hm] using h
  · simp [if_neg hm, List.nodup_append, h, hm]

theorem lookupA_eq_none_iff {κ β : Type} [DecidableEq κ] (l : List (κ × β)) (k : κ) :
    lookupA l k = none ↔ k ∉ l.map Prod.fst := by
  induction l with
  | nil => simp [lookupA]
  | cons p ps ih =>
    by_cases h : p.1 = k
    · simp [lookupA, h]
    · have hk : k ≠ p.1 := fun e => h e.symm
      simp [lookupA, h, ih, hk]

theorem lookupA_isSome_iff {κ β : Type} [DecidableEq κ] (l : List (κ × β)) (k : κ) :
    (lookupA l k).isSome ↔ k ∈ l.map Prod.fst := by
  rcases h : lookupA l k with _ | v
  · simpa [h] using (lookupA_eq_none_iff l k).mp h
  · have : ¬ lookupA l k = none := by simp [h]
    rw [lookupA_eq_none_iff] at this
    simpa [h] using not_not.mp this

theorem mem_of_lookupA_eq_some {κ β : Type} [DecidableEq κ] {l : List (κ × β)} {k : κ} {v : β}
    (h : lookupA l k = some v) : (k, v) ∈ l := by
  induction l with
  | nil => simp [lookupA] at h
  | cons p ps ih =>
    by_cases hp : p.1 = k
    · rw [lookupA, if_pos hp] at h
      have hpv : p = (k, v) := by
        obtain ⟨p1, p2⟩ := p
        simp only at hp
        simp only [Option.some.injEq] at h
        simp [hp, h]
      rw [hpv]
      exact List.mem_cons_self _ _
    · rw [lookupA, if_neg hp] at h
      exact List.mem_cons_of_mem _ (ih h)

theorem lookupA_eq_some_of_mem {κ β : Type} [DecidableEq κ] {l : List (κ × β)} {k : κ} {v : β}
    (hnd : (l.map Prod.fst).Nodup) (h : (k, v) ∈ l) : lookupA l k = some v := by
  induction l with
  | nil => simp at h
  | cons p ps ih =>
    simp only [List.map_cons, List.nodup_cons] at hnd
    rcases List.mem_cons.mp h with h | h
    · subst h
      simp [lookupA]
    · have hk : p.1 ≠ k := by
        intro e
        exact hnd.1 (e ▸ (List.mem_map.mpr ⟨(k, v), h, rfl⟩))
      rw [lookupA, if_neg hk]
      exact ih hnd.2 h

/-! ### insertNb lemmas -/

theorem mem_insertNb {s : List String} {x y : String} :
    x ∈ insertNb s y ↔ x ∈ s ∨ x = y := by
  unfold insertNb
  by_cases h : y ∈ s
  · simp only [if_pos h]
    exact ⟨Or.inl, fun hx => hx.elim id (fun e => e ▸ h)⟩
  · simp [if_neg h]

theorem nodup_insertNb {s : List String} {y : String} (h : s.Nodup) :
    (insertNb s y).Nodup := by
  unfold insertNb
  by_cases hm : y ∈ s
  · simpa [if_pos hm] using h
  · simp [if_neg hm, List.nodup_append, h, hm]

theorem length_insertNb_of_not_mem {s : List String} {y : String} (h : y ∉ s) :
    (insertNb s y).length = s.length + 1 := by
  simp [insertNb, if_neg h]

/-! ### addEdge characterization -/

theorem adjOf_addEdge (g : GameGraph) (a b x : String) :
    (g.addEdge a b).adjOf x =
      if x = b then insertNb (if b = a then insertNb (g.adjOf a) b else g.adjOf b) a
      else if x = a then insertNb (g.adjOf a) b
      else g.adjOf x := by
  simp only [GameGraph.adjOf, GameGraph.addEdge]
  have hL1 : ∀ y, lookupA (setA g.adjList a (insertNb ((lookupA g.adjList a).getD []) b)) y =
      if y = a then some (insertNb ((lookupA g.adjList a).getD []) b)
      else lookupA g.adjList y := by
    intro y
    by_cases h : y = a
    · subst h; rw [lookupA_setA_self, if_pos rfl]
    · rw [lookupA_setA_ne _ _ _ _ h, if_neg h]
  by_cases hxb : x = b
  · subst hxb
    rw [lookupA_setA_self, Option.getD_some, hL1, if_pos rfl]
    by_cases hba : x = a <;> simp [hba]
  · rw [lookupA_setA_ne _ _ _ _ hxb, hL1, if_neg hxb]
    by_cases hxa : x = a <;> simp [hxa]

theorem Edge_addEdge (g : GameGraph) (a b x y : String) :
    Edge (g.addEdge a b) x y ↔ Edge g x y ∨ (x = a ∧ y = b) ∨ (x = b ∧ y = a) := by
  unfold Edge
  rw [adjOf_addEdge]
  by_cases hxb : x = b <;> by_cases hba : b = a <;> by_cases hxa : x = a <;>
    simp_all [mem_insertNb]

theorem mem_nodes_addEdge (g : GameGraph) (a b x : String) :
    x ∈ (g.addEdge a b).nodes ↔ x ∈ g.nodes ∨ x = a ∨ x = b := by
  simp only [GameGraph.nodes, GameGraph.addEdge]
  rw [mem_map_fst_setA, mem_map_fst_setA]
  tauto

theorem nodup_nodes_addEdge (g : GameGraph) (a b : String) (h : g.nodes.Nodup) :
    (g.addEdge a b).nodes.Nodup := by
  exact nodup_map_fst_setA _ _ _ (nodup_map_fst_setA _ _ _ h)

theorem nodup_adjOf_addEdge (g : GameGraph) (a b : String)
    (h : ∀ x, (g.adjOf x).Nodup) : ∀ x, ((g.addEdge a b).adjOf x).Nodup := by
  intro x
  rw [adjOf_addEdge]
  split
  · split
    · exact nodup_insertNb (nodup_insertNb (h _))
    · exact nodup_insertNb (h _)
  · split
    · exact nodup_insertNb (h _)
    · exact h _

theorem insertNb_of_mem {s : List String} {y : String} (h : y ∈ s) : insertNb s y = s := by
  simp [insertNb, h]

/-! ### Concrete graphs used in the scenarios -/

/-- The chain A–B–C–D built by `addEdge` calls in that order. -/
def chainGraph : GameGraph :=
  ((GameGraph.new.addEdge "A" "B").addEdge "B" "C").addEdge "C" "D"

/-- The star built by `addEdge(A,B)`, `addEdge(A,C)`, `addEdge(A,D)`. -/
def starGraph : GameGraph :=
  ((GameGraph.new.addEdge "A" "B").addEdge "A" "C").addEdge "A" "D"

/-- The 4-cycle built by `addEdge` calls A–B, B–C, C–D, D–A. -/
def cycleGraph : GameGraph :=
  (((GameGraph.new.addEdge "A" "B").addEdge "B" "C").addEdge "C" "D").addEdge "D" "A"

/-- The graph obtained from a sequence of raw `addEdge` calls. -/
def foldEdges (ps : List (String × String)) : GameGraph :=
  ps.foldl (fun g p => g.addEdge p.1 p.2) GameGraph.new

/-! ### C1: BFS from a start name that is not a node -/

theorem bfsAux_nil (adj : List (String × List String)) (fuel : Nat)
    (dist : List (String × Nat)) : bfsAux adj fuel dist [] = dist := by
  cases fuel <;> rfl

/-- Claim C1, counterexample: on the chain graph, `bfs "NoSuchGame"` returns
the singleton mapping `{NoSuchGame ↦ 0}`, not the empty mapping the spec
promises. -/
theorem bfs_unknown_start_not_empty :
    "NoSuchGame" ∉ chainGraph.nodes ∧
      chainGraph.bfs "NoSuchGame" = [("NoSuchGame", 0)] ∧
      chainGraph.bfs "NoSuchGame" ≠ [] := by
  refine ⟨by decide, by decide, by decide⟩

/-- Claim C1 (amended): for every graph and every start name that is not a
node of the graph, `bfs start` returns the singleton mapping mapping `start`
to distance 0 (so callers must still check membership; the result is never
empty). -/
theorem bfs_unknown_start_singleton (g : GameGraph) (s : String) (h : s ∉ g.nodes) :
    g.bfs s = [(s, 0)] := by
  have hn : lookupA g.adjList s = none := (lookupA_eq_none_iff _ _).mpr h
  show bfsAux g.adjList (totalNbLen g.adjList + 1) [(s, 0)] [s] = [(s, 0)]
  rw [bfsAux, hn]
  exact bfsAux_nil _ _ _

/-- Witness for C1 (amended) at a concrete graph and start name. -/
theorem bfs_unknown_start_singleton_witness :
    "Z" ∉ chainGraph.nodes ∧ chainGraph.bfs "Z" = [("Z", 0)] :=
  ⟨by decide, bfs_unknown_start_singleton chainGraph "Z" (by decide)⟩

/-! ### C10: addEdge with equal arguments creates a self-loop -/

/-- Claim C10: `addEdge A A` has no guard against equal arguments: it puts
`A` into `A`'s own adjacency set, and when `A` was not already its own
neighbor this raises `A`'s degree by one. -/
theorem addEdge_self_loop (g : GameGraph) (A : String) :
    Edge (g.addEdge A A) A A ∧
      (A ∉ g.adjOf A →
        ((g.addEdge A A).adjOf A).length = (g.adjOf A).length + 1) := by
  constructor
  · exact (Edge_addEdge g A A A A).mpr (Or.inr (Or.inl ⟨rfl, rfl⟩))
  · intro h
    rw [adjOf_addEdge, if_pos rfl, if_pos rfl,
      insertNb_of_mem (mem_insertNb.mpr (Or.inr rfl)),
      length_insertNb_of_not_mem h]

/-- Witness for C10 on the chain graph at node A (degree 1 becomes 2). -/
theorem addEdge_self_loop_witness :
    Edge (chainGraph.addEdge "A" "A") "A" "A" ∧
      "A" ∉ chainGraph.adjOf "A" ∧
      ((chainGraph.addEdge "A" "A").adjOf "A").length = (chainGraph.adjOf "A").length + 1 :=
  ⟨(addEdge_self_loop chainGraph "A").1, by decide,
    (addEdge_self_loop chainGraph "A").2 (by decide)⟩

/-! ### C8: node and edge sets only grow -/

theorem graph_foldl_mono {ι : Type} (f : GameGraph → ι → GameGraph)
    (hf : ∀ g i x y, (x ∈ g.nodes → x ∈ (f g i).nodes) ∧ (Edge g x y → Edge (f g i) x y))
    (l : List ι) (g : GameGraph) (x y : String) :
    (x ∈ g.nodes → x ∈ (l.foldl f g).nodes) ∧ (Edge g x y → Edge (l.foldl f g) x y) := by
  induction l generalizing g with
  | nil => exact ⟨id, id⟩
  | cons i l ih =>
    refine ⟨fun hx => ?_, fun he => ?_⟩
    · exact (ih (f g i)).1 ((hf g i x y).1 hx)
    · exact (ih (f g i)).2 ((hf g i x y).2 he)

theorem addEdge_mono (g : GameGraph) (a b x y : String) :
    (x ∈ g.nodes → x ∈ (g.addEdge a b).nodes) ∧
      (Edge g x y → Edge (g.addEdge a b) x y) :=
  ⟨fun hx => (mem_nodes_addEdge g a b x).mpr (Or.inl hx),
    fun he => (Edge_addEdge g a b x y).mpr (Or.inl he)⟩

/-- Claim C8: every node and every edge present before an insertion is still
present afterwards, both for a single `addEdge` call and for a whole record
insertion (`buildStep`, one iteration of the build loop). -/
theorem insertion_monotone {α : Type} (parse : String → Option α)
    (st : List (String × VideoGame α) × GameGraph) (r : List String)
    (g : GameGraph) (a b x y : String) :
    ((x ∈ g.nodes → x ∈ (g.addEdge a b).nodes) ∧
      (Edge g x y → Edge (g.addEdge a b) x y)) ∧
    ((x ∈ st.2.nodes → x ∈ (buildStep parse st r).2.nodes) ∧
      (Edge st.2 x y → Edge (buildStep parse st r).2 x y)) := by
  refine ⟨addEdge_mono g a b x y, ?_⟩
  show (x ∈ st.2.nodes → x ∈ (List.foldl _ st.2 _).nodes) ∧
    (Edge st.2 x y → Edge (List.foldl _ st.2 _) x y)
  apply graph_foldl_mono
  intro g' p x' y'
  dsimp only
  split
  · exact addEdge_mono g' _ _ x' y'
  · exact ⟨id, id⟩

/-- Witness for C8: the edge A–B of the chain graph survives an `addEdge`
and a record insertion. -/
theorem insertion_monotone_witness :
    Edge (chainGraph.addEdge "X" "Y") "A" "B" ∧
      Edge (buildStep (fun _ => (none : Option Unit)) ([], chainGraph)
        ["E", "", "", "RPG", "P"]).2 "A" "B" :=
  ⟨((insertion_monotone (fun _ => (none : Option Unit)) ([], chainGraph)
      ["E", "", "", "RPG", "P"] chainGraph "X" "Y" "A" "B").1).2 (by decide),
    ((insertion_monotone (fun _ => (none : Option Unit)) ([], chainGraph)
      ["E", "", "", "RPG", "P"] chainGraph "X" "Y" "A" "B").2).2 (by decide)⟩

/-! ### C5: simple undirected graph invariants -/

/-- The invariant of C5: symmetric adjacency, no self-loops, duplicate-free
adjacency sets. -/
def SimpleInv (g : GameGraph) : Prop :=
  (∀ A B, Edge g A B ↔ Edge g B A) ∧ (∀ A, ¬Edge g A A) ∧ (∀ A, (g.adjOf A).Nodup)

theorem simpleInv_new : SimpleInv GameGraph.new := by
  refine ⟨fun A B => ?_, fun A => ?_, fun A => ?_⟩ <;>
    simp [Edge, GameGraph.adjOf, GameGraph.new, lookupA]

theorem simpleInv_addEdge (g : GameGraph) (a b : String) (hab : a ≠ b)
    (h : SimpleInv g) : SimpleInv (g.addEdge a b) := by
  obtain ⟨hsym, hloop, hnd⟩ := h
  refine ⟨fun A B => ?_, fun A => ?_, nodup_adjOf_addEdge g a b hnd⟩
  · rw [Edge_addEdge, Edge_addEdge, hsym A B]
    tauto
  · rw [Edge_addEdge]
    rintro (h | ⟨h1, h2⟩ | ⟨h1, h2⟩)
    · exact hloop A h
    · exact hab (h1 ▸ h2 ▸ rfl)
    · exact hab (h2 ▸ h1 ▸ rfl)

/-- Claim C5: every graph built by a sequence of `addEdge` calls whose two
arguments differ (as all calls issued by the construction loop do) is a
simple undirected graph: adjacency is symmetric, no node is its own
neighbor, and adjacency sets never contain duplicates, however often a pair
is re-inserted. -/
theorem addEdge_states_simple (ps : List (String × String))
    (hps : ∀ p ∈ ps, p.1 ≠ p.2) :
    (∀ A B, Edge (foldEdges ps) A B ↔ Edge (foldEdges ps) B A) ∧
      (∀ A, ¬Edge (foldEdges ps) A A) ∧
      (∀ A, ((foldEdges ps).adjOf A).Nodup) := by
  suffices h : ∀ (qs : List (String × String)), (∀ p ∈ qs, p.1 ≠ p.2) →
      ∀ g, SimpleInv g → SimpleInv (qs.foldl (fun g p => g.addEdge p.1 p.2) g) by
    exact h ps hps GameGraph.new simpleInv_new
  intro qs
  induction qs with
  | nil => exact fun _ g hg => hg
  | cons q qs ih =>
    intro hq g hg
    exact ih (fun p hp => hq p (List.mem_cons_of_mem _ hp)) _
      (simpleInv_addEdge g q.1 q.2 (hq q (List.mem_cons_self _ _)) hg)

/-- Witness for C5 on the duplicated-pair list (A,B),(B,C),(A,B). -/
theorem addEdge_states_simple_witness :
    (Edge (foldEdges [("A", "B"), ("B", "C"), ("A", "B")]) "A" "B" ↔
      Edge (foldEdges [("A", "B"), ("B", "C"), ("A", "B")]) "B" "A") ∧
      ¬Edge (foldEdges [("A", "B"), ("B", "C"), ("A", "B")]) "A" "A" ∧
      ((foldEdges [("A", "B"), ("B", "C"), ("A", "B")]).adjOf "A").Nodup :=
  ⟨(addEdge_states_simple _ (by decide)).1 "A" "B",
    (addEdge_states_simple _ (by decide)).2.1 "A",
    (addEdge_states_simple _ (by decide)).2.2 "A"⟩

/-! ### C6: the degree histogram -/

/-- Sum of the count values of a histogram. -/
def sumCounts (l : List (Nat × Nat)) : Nat := (l.map Prod.snd).sum

theorem sumCounts_bump (l : List (Nat × Nat)) (k : Nat) :
    sumCounts (setA l k ((lookupA l k).getD 0 + 1)) = sumCounts l + 1 := by
  induction l with
  | nil => simp [setA, lookupA, sumCounts]
  | cons p ps ih =>
    by_cases h : p.1 = k
    · simp [setA, lookupA, h, sumCounts, Nat.add_assoc, Nat.add_comm 1]
    · simp only [setA, lookupA, if_neg h, sumCounts, List.map_cons, List.sum_cons] at ih ⊢
      omega

theorem sumCounts_histo {ι : Type} (key : ι → Nat) (l : List ι) :
    ∀ acc : List (Nat × Nat),
      sumCounts (l.foldl (fun dist i => setA dist (key i) ((lookupA dist (key i)).getD 0 + 1)) acc) =
        sumCounts acc + l.length := by
  induction l with
  | nil => simp
  | cons i l ih =>
    intro acc
    simp only [List.foldl_cons, List.length_cons, ih, sumCounts_bump]
    omega

theorem lookupD_bump_self (l : List (Nat × Nat)) (k : Nat) :
    (lookupA (setA l k ((lookupA l k).getD 0 + 1)) k).getD 0 = (lookupA l k).getD 0 + 1 := by
  rw [lookupA_setA_self]
  rfl

theorem lookupD_histo {ι : Type} (key : ι → Nat) (l : List ι) :
    ∀ (acc : List (Nat × Nat)) (d : Nat),
      (lookupA (l.foldl (fun dist i => setA dist (key i) ((lookupA dist (key i)).getD 0 + 1)) acc) d).getD 0 =
        (lookupA acc d).getD 0 + l.countP (fun i => key i = d) := by
  induction l with
  | nil => simp
  | cons i l ih =>
    intro acc d
    simp only [List.foldl_cons, ih, List.countP_cons]
    by_cases h : key i = d
    · subst h
      simp [lookupD_bump_self]
      omega
    · rw [lookupA_setA_ne _ _ _ _ (fun e => h e.symm)]
      simp [h]

theorem nodup_keys_histo {ι : Type} (key : ι → Nat) (l : List ι) :
    ∀ acc : List (Nat × Nat), (acc.map Prod.fst).Nodup →
      ((l.foldl (fun dist i => setA dist (key i) ((lookupA dist (key i)).getD 0 + 1)) acc).map
        Prod.fst).Nodup := by
  induction l with
  | nil => exact fun _ h => h
  | cons i l ih =>
    intro acc hacc
    exact ih _ (nodup_map_fst_setA _ _ _ hacc)

/-- Claim C6: `degreeDistribution` is a histogram: the counts sum to the
total node count, each degree owns at most one bucket, and the bucket of
degree `d` counts exactly the nodes whose neighbor set has size `d`. -/
theorem degreeDistribution_sum_law (g : GameGraph) :
    sumCounts g.degreeDistribution = g.nodes.length ∧
      (g.degreeDistribution.map Prod.fst).Nodup ∧
      ∀ d, (lookupA g.degreeDistribution d).getD 0 =
        g.adjList.countP (fun p => p.2.length = d) := by
  refine ⟨?_, ?_, ?_⟩
  · have h := sumCounts_histo (fun p : String × List String => p.2.length) g.adjList []
    simpa [GameGraph.degreeDistribution, sumCounts, GameGraph.nodes] using h
  · exact nodup_keys_histo (fun p : String × List String => p.2.length) g.adjList [] (by simp)
  · intro d
    have h := lookupD_histo (fun p : String × List String => p.2.length) g.adjList [] d
    simpa [GameGraph.degreeDistribution, lookupA] using h

/-! ### C7: degree centrality -/

theorem setA_of_not_mem {κ β : Type} [DecidableEq κ] {l : List (κ × β)} {k : κ} (v : β)
    (h : k ∉ l.map Prod.fst) : setA l k v = l ++ [(k, v)] := by
  induction l with
  | nil => simp [setA]
  | cons p ps ih =>
    simp only [List.map_cons, List.mem_cons] at h
    push_neg at h
    simp only [setA, if_neg (Ne.symm h.1), List.cons_append, ih h.2]

theorem foldl_setA_fresh (l : List (String × List String)) :
    ∀ acc : List (String × Nat), (∀ p ∈ l, p.1 ∉ acc.map Prod.fst) →
      (l.map Prod.fst).Nodup →
      l.foldl (fun c p => setA c p.1 p.2.length) acc =
        acc ++ l.map (fun p => (p.1, p.2.length)) := by
  induction l with
  | nil => simp
  | cons p ps ih =>
    intro acc hacc hnd
    simp only [List.map_cons, List.nodup_cons] at hnd
    simp only [List.foldl_cons]
    rw [setA_of_not_mem _ (hacc p (List.mem_cons_self _ _)),
      ih (acc ++ [(p.1, p.2.length)]) ?_ hnd.2]
    · simp
    · intro q hq
      simp only [List.map_append, List.mem_append, List.map_cons, List.map_nil]
      rintro (h | h)
      · exact hacc q (List.mem_cons_of_mem _ hq) h
      · simp only [List.mem_singleton] at h
        exact hnd.1 (h ▸ List.mem_map.mpr ⟨q, hq, rfl⟩)

theorem degreeCentrality_eq_map (g : GameGraph) (h : g.nodes.Nodup) :
    g.degreeCentrality = g.adjList.map (fun p => (p.1, p.2.length)) := by
  have := foldl_setA_fresh g.adjList [] (by simp) h
  simpa [GameGraph.degreeCentrality] using this

theorem lookupA_map_snd {κ β γ : Type} [DecidableEq κ] (f : β → γ) (l : List (κ × β)) (k : κ) :
    lookupA (l.map (fun p => (p.1, f p.2))) k = (lookupA l k).map f := by
  induction l with
  | nil => simp [lookupA]
  | cons p ps ih =>
    by_cases h : p.1 = k <;> simp [lookupA, h, ih]

/-- Claim C7: on a well-formed graph state (duplicate-free key list and
neighbor sets, as the hash containers guarantee), `degreeCentrality` has
every node exactly once as a key, mapped to its count of distinct
neighbors; and the A-centered star yields `{A:3, B:1, C:1, D:1}`. -/
theorem degreeCentrality_total_coverage :
    (∀ g : GameGraph, g.nodes.Nodup → (∀ p ∈ g.adjList, p.2.Nodup) →
      g.degreeCentrality.map Prod.fst = g.nodes ∧
      (∀ n, n ∈ g.nodes → (g.degreeCentrality.map Prod.fst).count n = 1) ∧
      (∀ n, n ∈ g.nodes →
        lookupA g.degreeCentrality n = some (g.adjOf n).dedup.length)) ∧
    starGraph.degreeCentrality = [("A", 3), ("B", 1), ("C", 1), ("D", 1)] := by
  constructor
  · intro g hkeys hadj
    have hmap : g.degreeCentrality.map Prod.fst = g.nodes := by
      rw [degreeCentrality_eq_map g hkeys]
      simp [GameGraph.nodes]
    refine ⟨hmap, ?_, ?_⟩
    · intro n hn
      rw [hmap]
      exact List.count_eq_one_of_mem hkeys hn
    · intro n hn
      rcases hv : lookupA g.adjList n with _ | nbs
      · exact absurd (show n ∈ g.adjList.map Prod.fst from hn)
          ((lookupA_eq_none_iff _ _).mp hv)
      · have hnbs : nbs.Nodup := hadj (n, nbs) (mem_of_lookupA_eq_some hv)
        rw [degreeCentrality_eq_map g hkeys, lookupA_map_snd, hv]
        simp [GameGraph.adjOf, hv, List.Nodup.dedup hnbs]
  · decide

/-- Witness for C7 at the star graph. -/
theorem degreeCentrality_total_coverage_witness :
    starGraph.nodes.Nodup ∧ (∀ p ∈ starGraph.adjList, p.2.Nodup) ∧
      lookupA starGraph.degreeCentrality "A" = some (starGraph.adjOf "A").dedup.length :=
  ⟨by decide, by decide,
    (degreeCentrality_total_coverage.1 starGraph (by decide) (by decide)).2.2 "A" (by decide)⟩

/-! ### The build loop: characterizing the produced graph -/

theorem Edge_new (x y : String) : ¬Edge GameGraph.new x y := by
  simp [Edge, GameGraph.adjOf, GameGraph.new, lookupA]

theorem Edge_foldl_cond {ι : Type} (nm : String) (f : ι → String) (cond : ι → Prop)
    [DecidablePred cond] (l : List ι) (g : GameGraph) (x y : String) :
    Edge (l.foldl (fun gr p => if cond p then gr.addEdge nm (f p) else gr) g) x y ↔
      Edge g x y ∨ ∃ p, p ∈ l ∧ cond p ∧
        ((x = nm ∧ y = f p) ∨ (x = f p ∧ y = nm)) := by
  induction l generalizing g with
  | nil => simp
  | cons i l ih =>
    simp only [List.foldl_cons]
    by_cases hc : cond i
    · rw [if_pos hc, ih, Edge_addEdge]
      constructor
      · rintro ((h | h | h) | ⟨p, hp, hcp, hxy⟩)
        · exact Or.inl h
        · exact Or.inr ⟨i, List.mem_cons_self _ _, hc, Or.inl h⟩
        · exact Or.inr ⟨i, List.mem_cons_self _ _, hc, Or.inr h⟩
        · exact Or.inr ⟨p, List.mem_cons_of_mem _ hp, hcp, hxy⟩
      · rintro (h | ⟨p, hp, hcp, hxy⟩)
        · exact Or.inl (Or.inl h)
        · rcases List.mem_cons.mp hp with rfl | hp'
          · exact Or.inl (hxy.elim (fun h => Or.inr (Or.inl h)) (fun h => Or.inr (Or.inr h)))
          · exact Or.inr ⟨p, hp', hcp, hxy⟩
    · rw [if_neg hc, ih]
      constructor
      · rintro (h | ⟨p, hp, hcp, hxy⟩)
        · exact Or.inl h
        · exact Or.inr ⟨p, List.mem_cons_of_mem _ hp, hcp, hxy⟩
      · rintro (h | ⟨p, hp, hcp, hxy⟩)
        · exact Or.inl h
        · rcases List.mem_cons.mp hp with rfl | hp'
          · exact absurd hcp hc
          · exact Or.inr ⟨p, hp', hcp, hxy⟩

theorem mem_nodes_foldl_cond {ι : Type} (nm : String) (f : ι → String) (cond : ι → Prop)
    [DecidablePred cond] (l : List ι) (g : GameGraph) (x : String) :
    x ∈ (l.foldl (fun gr p => if cond p then gr.addEdge nm (f p) else gr) g).nodes ↔
      x ∈ g.nodes ∨ ∃ p, p ∈ l ∧ cond p ∧ (x = nm ∨ x = f p) := by
  induction l generalizing g with
  | nil => simp
  | cons i l ih =>
    simp only [List.foldl_cons]
    by_cases hc : cond i
    · rw [if_pos hc, ih, mem_nodes_addEdge]
      constructor
      · rintro ((h | h | h) | ⟨p, hp, hcp, hxy⟩)
        · exact Or.inl h
        · exact Or.inr ⟨i, List.mem_cons_self _ _, hc, Or.inl h⟩
        · exact Or.inr ⟨i, List.mem_cons_self _ _, hc, Or.inr h⟩
        · exact Or.inr ⟨p, List.mem_cons_of_mem _ hp, hcp, hxy⟩
      · rintro (h | ⟨p, hp, hcp, hxy⟩)
        · exact Or.inl (Or.inl h)
        · rcases List.mem_cons.mp hp with rfl | hp'
          · exact Or.inl (hxy.elim (fun h => Or.inr (Or.inl h)) (fun h => Or.inr (Or.inr h)))
          · exact Or.inr ⟨p, hp', hcp, hxy⟩
    · rw [if_neg hc, ih]
      constructor
      · rintro (h | ⟨p, hp, hcp, hxy⟩)
        · exact Or.inl h
        · exact Or.inr ⟨p, List.mem_cons_of_mem _ hp, hcp, hxy⟩
      · rintro (h | ⟨p, hp, hcp, hxy⟩)
        · exact Or.inl h
        · rcases List.mem_cons.mp hp with rfl | hp'
          · exact absurd hcp hc
          · exact Or.inr ⟨p, hp', hcp, hxy⟩

theorem fst_foldl_buildStep {α : Type} (parse : String → Option α) (rows : List (List String)) :
    ∀ st : List (String × VideoGame α) × GameGraph,
      (rows.foldl (buildStep parse) st).1 =
        rows.foldl (fun gs r => setA gs (rowName r) (mkVideoGame parse r)) st.1 := by
  induction rows with
  | nil => intro st; rfl
  | cons r rows ih =>
    intro st
    simp only [List.foldl_cons, ih]
    rfl

theorem foldl_setA_fresh_gen {ι β : Type} (key : ι → String) (val : ι → β) (l : List ι) :
    ∀ acc : List (String × β), (∀ i ∈ l, key i ∉ acc.map Prod.fst) → (l.map key).Nodup →
      l.foldl (fun c i => setA c (key i) (val i)) acc =
        acc ++ l.map (fun i => (key i, val i)) := by
  induction l with
  | nil => simp
  | cons i l ih =>
    intro acc hacc hnd
    simp only [List.map_cons, List.nodup_cons] at hnd
    simp only [List.foldl_cons]
    rw [setA_of_not_mem _ (hacc i (List.mem_cons_self _ _)),
      ih (acc ++ [(key i, val i)]) ?_ hnd.2]
    · simp
    · intro q hq
      simp only [List.map_append, List.mem_append, List.map_cons, List.map_nil]
      rintro (h | h)
      · exact hacc q (List.mem_cons_of_mem _ hq) h
      · simp only [List.mem_singleton] at h
        exact hnd.1 (h ▸ List.mem_map.mpr ⟨q, hq, rfl⟩)

theorem gamesList_eq {α : Type} (parse : String → Option α) (rows : List (List String))
    (hnd : (rows.map rowName).Nodup) :
    (buildGraphL parse rows).1 = rows.map (fun r => (rowName r, mkVideoGame parse r)) := by
  show (rows.foldl (buildStep parse) ([], GameGraph.new)).1 = _
  rw [fst_foldl_buildStep]
  exact foldl_setA_fresh_gen rowName (mkVideoGame parse) rows [] (by simp) hnd

theorem sublist_singleton_iff {ι : Type} {l : List ι} {a : ι} :
    List.Sublist l [a] ↔ l = [] ∨ l = [a] := by
  constructor
  · intro h
    cases h with
    | cons _ h' => exact Or.inl (List.sublist_nil.mp h')
    | cons₂ _ h' => exact Or.inr (by rw [List.sublist_nil.mp h'])
  · rintro (rfl | rfl)
    · exact List.nil_sublist _
    · exact List.Sublist.refl _

theorem pair_sublist_snoc {ι : Type} {r1 r2 r : ι} {rs : List ι} :
    List.Sublist [r1, r2] (rs ++ [r]) ↔
      List.Sublist [r1, r2] rs ∨ (r2 = r ∧ r1 ∈ rs) := by
  constructor
  · intro h
    rcases List.sublist_append_iff.mp h with ⟨l1, l2, heq, h1, h2⟩
    rcases sublist_singleton_iff.mp h2 with rfl | rfl
    · rw [List.append_nil] at heq
      exact Or.inl (heq ▸ h1)
    · match l1, heq with
      | [], heq => simp at heq
      | [a], heq =>
        simp only [List.cons_append, List.nil_append, List.cons.injEq] at heq
        obtain ⟨rfl, rfl, -⟩ := heq
        exact Or.inr ⟨rfl, List.singleton_sublist.mp h1⟩
      | a :: b :: l, heq => simp at heq
  · rintro (h | ⟨rfl, hmem⟩)
    · exact h.trans (List.sublist_append_left rs [r])
    · have h1 : List.Sublist [r1] rs := List.singleton_sublist.mpr hmem
      simpa using h1.append (List.Sublist.refl [r2])

/-! ### C2: isolated records and the node set -/

/-- Claim C2, counterexample: a single record sharing nothing (there is no
previously inserted record at all) produces an empty node set — its name is
not present in the graph. -/
theorem isolated_record_cex :
    (buildGraphL (fun _ => (none : Option Unit))
        [["GameA", "", "", "RPG", "Nintendo"]]).2.nodes = [] ∧
      "GameA" ∉ (buildGraphL (fun _ => (none : Option Unit))
        [["GameA", "", "", "RPG", "Nintendo"]]).2.nodes := by
  constructor <;> decide

/-- Claim C2 (amended): after a record is processed by the build loop, its
name is in the node set if and only if it was already a node or some entry
of the updated games map with a different name shares its genre or
publisher.  An isolated record (no such match) is not observable in the
node set: nodes are created only as endpoints of `addEdge`. -/
theorem insert_node_iff {α : Type} (parse : String → Option α)
    (rows : List (List String)) (r : List String) :
    rowName r ∈ (buildGraphL parse (rows ++ [r])).2.nodes ↔
      rowName r ∈ (buildGraphL parse rows).2.nodes ∨
        ∃ q, q ∈ setA (buildGraphL parse rows).1 (rowName r) (mkVideoGame parse r) ∧
          q.1 ≠ rowName r ∧
          (q.2.genre = rowGenre r ∨ q.2.publisher = rowPublisher r) := by
  have hsplit : buildGraphL parse (rows ++ [r]) = buildStep parse (buildGraphL parse rows) r := by
    show List.foldl _ _ _ = _
    rw [List.foldl_append, List.foldl_cons, List.foldl_nil]
    rfl
  rw [hsplit]
  have h := mem_nodes_foldl_cond (rowName r) (Prod.fst (α := String) (β := VideoGame α))
    (fun q => q.1 ≠ rowName r ∧ (q.2.genre = rowGenre r ∨ q.2.publisher = rowPublisher r))
    (setA (buildGraphL parse rows).1 (rowName r) (mkVideoGame parse r))
    (buildGraphL parse rows).2 (rowName r)
  dsimp only [buildStep, mkVideoGame_name, mkVideoGame_genre, mkVideoGame_publisher]
  rw [h]
  constructor
  · rintro (h' | ⟨p, hp, hcp, -⟩)
    · exact Or.inl h'
    · exact Or.inr ⟨p, hp, hcp.1, hcp.2⟩
  · rintro (h' | ⟨q, hq, h1, h2⟩)
    · exact Or.inl h'
    · exact Or.inr ⟨q, hq, ⟨h1, h2⟩, Or.inl rfl⟩

/-! ### C3: which edges the build loop creates -/

theorem buildGraphL_snoc {α : Type} (parse : String → Option α) (rows : List (List String))
    (r : List String) :
    buildGraphL parse (rows ++ [r]) = buildStep parse (buildGraphL parse rows) r := by
  show List.foldl _ _ _ = _
  rw [List.foldl_append, List.foldl_cons, List.foldl_nil]
  rfl

theorem Edge_buildStep {α : Type} (parse : String → Option α)
    (st : List (String × VideoGame α) × GameGraph) (r : List String) (x y : String) :
    Edge (buildStep parse st r).2 x y ↔
      Edge st.2 x y ∨ ∃ q, q ∈ setA st.1 (rowName r) (mkVideoGame parse r) ∧
        q.1 ≠ rowName r ∧ (q.2.genre = rowGenre r ∨ q.2.publisher = rowPublisher r) ∧
        ((x = rowName r ∧ y = q.1) ∨ (x = q.1 ∧ y = rowName r)) := by
  dsimp only [buildStep, mkVideoGame_name, mkVideoGame_genre, mkVideoGame_publisher]
  have h := Edge_foldl_cond (rowName r) (Prod.fst (α := String) (β := VideoGame α))
    (fun q => q.1 ≠ rowName r ∧ (q.2.genre = rowGenre r ∨ q.2.publisher = rowPublisher r))
    (setA st.1 (rowName r) (mkVideoGame parse r)) st.2 x y
  rw [h]
  constructor
  · rintro (h' | ⟨p, hp, hcp, hxy⟩)
    · exact Or.inl h'
    · exact Or.inr ⟨p, hp, hcp.1, hcp.2, hxy⟩
  · rintro (h' | ⟨q, hq, h1, h2, hxy⟩)
    · exact Or.inl h'
    · exact Or.inr ⟨q, hq, ⟨h1, h2⟩, hxy⟩

/-- Claim C3: for pairwise-distinct names, the final graph has an undirected
edge between `A` and `B` exactly when some row named `A` was inserted before
some row named `B` (or vice versa, the edge being unordered) and the two
rows share a genre or a publisher, under exact case-sensitive string
equality (empty strings equal each other). -/
theorem build_edge_iff {α : Type} (parse : String → Option α) (rows : List (List String))
    (hnd : (rows.map rowName).Nodup) (A B : String) :
    Edge (buildGraphL parse rows).2 A B ↔
      ∃ r1 r2, List.Sublist [r1, r2] rows ∧ similarRows r1 r2 ∧
        ((rowName r1 = A ∧ rowName r2 = B) ∨ (rowName r1 = B ∧ rowName r2 = A)) := by
  induction rows using List.reverseRecOn with
  | nil =>
    constructor
    · intro h
      exact absurd h (Edge_new A B)
    · rintro ⟨r1, r2, hsub, -, -⟩
      exact absurd (List.sublist_nil.mp hsub) (by simp)
  | append_singleton rs r ih =>
    rw [List.map_append] at hnd
    have hnd_rs : (rs.map rowName).Nodup := hnd.of_append_left
    have hfresh : rowName r ∉ rs.map rowName := by
      intro hmem
      exact (List.disjoint_of_nodup_append hnd) hmem (by simp)
    rw [buildGraphL_snoc, Edge_buildStep, ih hnd_rs]
    have hgames : setA (buildGraphL parse rs).1 (rowName r) (mkVideoGame parse r) =
        rs.map (fun rr => (rowName rr, mkVideoGame parse rr)) ++
          [(rowName r, mkVideoGame parse r)] := by
      rw [gamesList_eq parse rs hnd_rs]
      apply setA_of_not_mem
      simpa [List.map_map, Function.comp] using hfresh
    rw [hgames]
    constructor
    · rintro (⟨r1, r2, hsub, hs, hn⟩ | ⟨q, hq, hne, hsim, hxy⟩)
      · exact ⟨r1, r2, pair_sublist_snoc.mpr (Or.inl hsub), hs, hn⟩
      · rcases List.mem_append.mp hq with hq' | hq'
        · obtain ⟨r', hr', rfl⟩ := List.mem_map.mp hq'
          refine ⟨r', r, pair_sublist_snoc.mpr (Or.inr ⟨rfl, hr'⟩), hsim, ?_⟩
          rcases hxy with ⟨h1, h2⟩ | ⟨h1, h2⟩
          · exact Or.inr ⟨h2.symm, h1.symm⟩
          · exact Or.inl ⟨h1.symm, h2.symm⟩
        · rw [List.mem_singleton] at hq'
          subst hq'
          exact absurd rfl hne
    · rintro ⟨r1, r2, hsub, hsim, hn⟩
      rcases pair_sublist_snoc.mp hsub with hsub' | ⟨rfl, hmem⟩
      · exact Or.inl ⟨r1, r2, hsub', hsim, hn⟩
      · refine Or.inr ⟨(rowName r1, mkVideoGame parse r1),
          List.mem_append.mpr (Or.inl (List.mem_map.mpr ⟨r1, hmem, rfl⟩)),
          fun e => hfresh (e ▸ List.mem_map.mpr ⟨r1, hmem, rfl⟩), hsim, ?_⟩
        rcases hn with ⟨h1, h2⟩ | ⟨h1, h2⟩
        · exact Or.inr ⟨h1.symm, h2.symm⟩
        · exact Or.inl ⟨h2.symm, h1.symm⟩

/-- Witness for C3: the spec's three-record scenario, genres
{RPG, RPG, Action} and publishers {X, Y, Y}; records 1–2 share a genre, so
their edge exists. -/
theorem build_edge_iff_witness :
    Edge (buildGraphL (fun _ => (none : Option Unit))
      [["r1", "", "", "RPG", "X"], ["r2", "", "", "RPG", "Y"],
        ["r3", "", "", "Action", "Y"]]).2 "r1" "r2" :=
  (build_edge_iff (fun _ => (none : Option Unit))
    [["r1", "", "", "RPG", "X"], ["r2", "", "", "RPG", "Y"],
      ["r3", "", "", "Action", "Y"]] (by decide) "r1" "r2").mpr
    ⟨["r1", "", "", "RPG", "X"], ["r2", "", "", "RPG", "Y"],
      List.Sublist.cons₂ _ (List.Sublist.cons₂ _ (List.nil_sublist _)),
      Or.inl rfl, Or.inl ⟨rfl, rfl⟩⟩

/-! ### C9: score-parse failures never affect the build -/

/-- The part of a stored games-map entry the graph construction can read:
its key and the genre and publisher of the stored record. -/
def gameKey {α : Type} (q : String × VideoGame α) : String × String × String :=
  (q.1, q.2.genre, q.2.publisher)

theorem graph_fold_eq {α β : Type} (nm gn pb : String)
    (l : List (String × VideoGame α)) (l' : List (String × VideoGame β))
    (h : l.map gameKey = l'.map gameKey) (g : GameGraph) :
    l.foldl (fun gr p =>
      if p.1 ≠ nm ∧ (p.2.genre = gn ∨ p.2.publisher = pb) then gr.addEdge nm p.1 else gr) g =
    l'.foldl (fun gr p =>
      if p.1 ≠ nm ∧ (p.2.genre = gn ∨ p.2.publisher = pb) then gr.addEdge nm p.1 else gr) g := by
  induction l generalizing l' g with
  | nil =>
    cases l' with
    | nil => rfl
    | cons i' l'2 => simp at h
  | cons i l ihl =>
    cases l' with
    | nil => simp at h
    | cons i' l'2 =>
      simp only [List.map_cons, List.cons.injEq] at h
      obtain ⟨hkey, htail⟩ := h
      have h1 : i.1 = i'.1 := congrArg (fun t => t.1) hkey
      have h2 : i.2.genre = i'.2.genre := congrArg (fun t => t.2.1) hkey
      have h3 : i.2.publisher = i'.2.publisher := congrArg (fun t => t.2.2) hkey
      simp only [List.foldl_cons]
      rw [show (if i.1 ≠ nm ∧ (i.2.genre = gn ∨ i.2.publisher = pb)
            then GameGraph.addEdge g nm i.1 else g) =
          (if i'.1 ≠ nm ∧ (i'.2.genre = gn ∨ i'.2.publisher = pb)
            then GameGraph.addEdge g nm i'.1 else g) from by rw [h1, h2, h3]]
      exact ihl l'2 htail _

theorem map_gameKey_setA {α β : Type}
    (l : List (String × VideoGame α)) (l' : List (String × VideoGame β))
    (h : l.map gameKey = l'.map gameKey) (k : String)
    (v : VideoGame α) (v' : VideoGame β)
    (hg : v.genre = v'.genre) (hp : v.publisher = v'.publisher) :
    (setA l k v).map gameKey = (setA l' k v').map gameKey := by
  induction l generalizing l' with
  | nil =>
    cases l' with
    | nil => simp [setA, gameKey, hg, hp]
    | cons i' l'2 => simp at h
  | cons i l ihl =>
    cases l' with
    | nil => simp at h
    | cons i' l'2 =>
      simp only [List.map_cons, List.cons.injEq] at h
      obtain ⟨hkey, htail⟩ := h
      have h1 : i.1 = i'.1 := congrArg (fun t => t.1) hkey
      simp only [setA]
      by_cases hik : i.1 = k
      · rw [if_pos hik, if_pos (h1 ▸ hik)]
        simp [gameKey, hg, hp, htail]
      · rw [if_neg hik, if_neg (h1 ▸ hik)]
        simp only [List.map_cons, hkey, ihl l'2 htail]

theorem build_proj_eq {α β : Type} (p : String → Option α) (q : String → Option β) :
    ∀ rows rows' : List (List String),
      rows.map (fun r => (rowName r, rowGenre r, rowPublisher r)) =
        rows'.map (fun r => (rowName r, rowGenre r, rowPublisher r)) →
      ∀ (st : List (String × VideoGame α) × GameGraph)
        (st' : List (String × VideoGame β) × GameGraph),
        st.1.map gameKey = st'.1.map gameKey → st.2 = st'.2 →
        (rows.foldl (buildStep p) st).1.map gameKey =
            (rows'.foldl (buildStep q) st').1.map gameKey ∧
          (rows.foldl (buildStep p) st).2 = (rows'.foldl (buildStep q) st').2 := by
  intro rows
  induction rows with
  | nil =>
    intro rows' h st st' h1 h2
    cases rows' with
    | nil => exact ⟨h1, h2⟩
    | cons r' rows'2 => simp at h
  | cons r rows ihr =>
    intro rows' h st st' h1 h2
    cases rows' with
    | nil => simp at h
    | cons r' rows'2 =>
      simp only [List.map_cons, List.cons.injEq] at h
      obtain ⟨hproj, htail⟩ := h
      have hn : rowName r = rowName r' := congrArg (fun t => t.1) hproj
      have hg : rowGenre r = rowGenre r' := congrArg (fun t => t.2.1) hproj
      have hpb : rowPublisher r = rowPublisher r' := congrArg (fun t => t.2.2) hproj
      have hg' : (mkVideoGame p r).genre = (mkVideoGame q r').genre := by
        rw [mkVideoGame_genre, mkVideoGame_genre, hg]
      have hp' : (mkVideoGame p r).publisher = (mkVideoGame q r').publisher := by
        rw [mkVideoGame_publisher, mkVideoGame_publisher, hpb]
      have hgamesEq0 : (setA st.1 (rowName r) (mkVideoGame p r)).map gameKey =
          (setA st'.1 (rowName r) (mkVideoGame q r')).map gameKey :=
        map_gameKey_setA st.1 st'.1 h1 (rowName r) _ _ hg' hp'
      have hgamesEq : (setA st.1 (rowName r) (mkVideoGame p r)).map gameKey =
          (setA st'.1 (rowName r') (mkVideoGame q r')).map gameKey := by
        rw [← hn]
        exact hgamesEq0
      simp only [List.foldl_cons]
      apply ihr rows'2 htail
      · exact hgamesEq
      · have e3 : (buildStep p st r).2 =
            (setA st.1 (rowName r) (mkVideoGame p r)).foldl
              (fun gr pp =>
                if pp.1 ≠ rowName r ∧ (pp.2.genre = rowGenre r ∨ pp.2.publisher = rowPublisher r)
                then gr.addEdge (rowName r) pp.1 else gr) st.2 := rfl
        have e4 : (buildStep q st' r').2 =
            (setA st'.1 (rowName r') (mkVideoGame q r')).foldl
              (fun gr pp =>
                if pp.1 ≠ rowName r' ∧ (pp.2.genre = rowGenre r' ∨ pp.2.publisher = rowPublisher r')
                then gr.addEdge (rowName r') pp.1 else gr) st'.2 := rfl
        rw [e3, e4, h2, ← hn, ← hg, ← hpb]
        exact graph_fold_eq (rowName r) (rowGenre r) (rowPublisher r) _ _ hgamesEq0 st'.2

/-- Claim C9: a score field that fails to parse never aborts ingestion: the
record is stored with the score absent (`none`), and the resulting graph
(and the set of stored names) is identical to what any other parse outcome
— including the field being absent from the source row — would produce:
the build depends only on the name, genre and publisher columns. -/
theorem parse_failure_harmless {α β : Type} (p : String → Option α) (q : String → Option β)
    (rows rows' : List (List String))
    (hproj : rows.map (fun r => (rowName r, rowGenre r, rowPublisher r)) =
      rows'.map (fun r => (rowName r, rowGenre r, rowPublisher r))) :
    (buildGraphL p rows).2 = (buildGraphL q rows').2 ∧
      (buildGraphL p rows).1.map Prod.fst = (buildGraphL q rows').1.map Prod.fst ∧
      ∀ r : List String, (r.get? 6).bind p = none → (mkVideoGame p r).criticScore = none := by
  have h := build_proj_eq p q rows rows' hproj ([], GameGraph.new) ([], GameGraph.new) rfl rfl
  refine ⟨h.2, ?_, fun r hr => hr⟩
  have hfst := congrArg (List.map (fun t : String × String × String => t.1)) h.1
  simpa [List.map_map, Function.comp, gameKey] using hfst

/-- Witness for C9: an unparsable critic-score cell ("abc", with a parser
that accepts nothing) produces the same graph as a row without the score
columns. -/
theorem parse_failure_harmless_witness :
    (buildGraphL (fun _ => (none : Option Unit))
        [["A", "x", "x", "G", "P", "i", "abc"], ["B", "x", "x", "G", "Q"]]).2 =
      (buildGraphL (fun _ => (none : Option Unit))
        [["A", "x", "x", "G", "P"], ["B", "x", "x", "G", "Q", "i", "7.5"]]).2 :=
  (parse_failure_harmless (fun _ => (none : Option Unit)) (fun _ => (none : Option Unit))
    [["A", "x", "x", "G", "P", "i", "abc"], ["B", "x", "x", "G", "Q"]]
    [["A", "x", "x", "G", "P"], ["B", "x", "x", "G", "Q", "i", "7.5"]] (by decide)).1

/-! ### C4: BFS computes exact shortest distances

The proof follows the classic worklist invariant: every recorded distance is
a true minimum distance, the queue carries two consecutive levels, and every
fully processed node has all its neighbors recorded. -/

theorem bfsInner_preserve (d1 : Nat) (nbs : List String) :
    ∀ (dist : List (String × Nat)) (queue : List String) (v : String) (n : Nat),
      lookupA dist v = some n → lookupA (bfsInner d1 nbs dist queue).1 v = some n := by
  induction nbs with
  | nil => intro dist queue v n h; exact h
  | cons nb rest ih =>
    intro dist queue v n h
    simp only [bfsInner]
    rcases hnb : lookupA dist nb with _ | d
    · have hvnb : v ≠ nb := fun e => by rw [e, hnb] at h; exact Option.noConfusion h
      exact ih _ _ v n (by rw [lookupA_setA_ne _ _ _ _ hvnb]; exact h)
    · exact ih _ _ v n h

theorem bfsInner_char (d1 : Nat) (nbs : List String) :
    ∀ (dist : List (String × Nat)) (queue : List String) (v : String) (n : Nat),
      lookupA (bfsInner d1 nbs dist queue).1 v = some n →
      lookupA dist v = some n ∨ (v ∈ nbs ∧ lookupA dist v = none ∧ n = d1) := by
  induction nbs with
  | nil => intro dist queue v n h; exact Or.inl h
  | cons nb rest ih =>
    intro dist queue v n h
    simp only [bfsInner] at h
    rcases hnb : lookupA dist nb with _ | d
    · rw [hnb] at h
      rcases ih _ _ v n h with h' | ⟨hv, hnone, rfl⟩
      · by_cases hvnb : v = nb
        · subst hvnb
          rw [lookupA_setA_self] at h'
          exact Or.inr ⟨List.mem_cons_self _ _, hnb, (Option.some.injEq _ _ ▸ h').symm⟩
        · rw [lookupA_setA_ne _ _ _ _ hvnb] at h'
          exact Or.inl h'
      · by_cases hvnb : v = nb
        · subst hvnb
          rw [lookupA_setA_self] at hnone
          exact Option.noConfusion hnone
        · rw [lookupA_setA_ne _ _ _ _ hvnb] at hnone
          exact Or.inr ⟨List.mem_cons_of_mem _ hv, hnone, rfl⟩
    · rw [hnb] at h
      rcases ih _ _ v n h with h' | ⟨hv, hnone, rfl⟩
      · exact Or.inl h'
      · exact Or.inr ⟨List.mem_cons_of_mem _ hv, hnone, rfl⟩

theorem bfsInner_nodup (d1 : Nat) (nbs : List String) :
    ∀ (dist : List (String × Nat)) (queue : List String),
      (dist.map Prod.fst).Nodup → ((bfsInner d1 nbs dist queue).1.map Prod.fst).Nodup := by
  induction nbs with
  | nil => intro dist queue h; exact h
  | cons nb rest ih =>
    intro dist queue h
    simp only [bfsInner]
    rcases hnb : lookupA dist nb with _ | d
    · exact ih _ _ (nodup_map_fst_setA _ _ _ h)
    · exact ih _ _ h

theorem bfsInner_cover (d1 : Nat) (nbs : List String) :
    ∀ (dist : List (String × Nat)) (queue : List String) (nb : String), nb ∈ nbs →
      nb ∈ (bfsInner d1 nbs dist queue).1.map Prod.fst := by
  induction nbs with
  | nil => intro dist queue nb h; exact absurd h (List.not_mem_nil _)
  | cons nb0 rest ih =>
    intro dist queue nb h
    simp only [bfsInner]
    rcases hnb0 : lookupA dist nb0 with _ | d
    · rcases List.mem_cons.mp h with rfl | h'
      · have := bfsInner_preserve d1 rest (setA dist nb d1) (queue ++ [nb]) nb d1
          (lookupA_setA_self _ _ _)
        rw [← lookupA_isSome_iff]
        simp [this]
      · exact ih _ _ nb h'
    · rcases List.mem_cons.mp h with rfl | h'
      · have := bfsInner_preserve d1 rest dist queue nb d hnb0
        rw [← lookupA_isSome_iff]
        simp [this]
      · exact ih _ _ nb h'

theorem bfsInner_sub (d1 : Nat) (nbs : List String) (dist : List (String × Nat))
    (queue : List String) (v : String) (h : v ∈ (bfsInner d1 nbs dist queue).1.map Prod.fst) :
    v ∈ dist.map Prod.fst ∨ v ∈ nbs := by
  rw [← lookupA_isSome_iff] at h
  rcases hv : lookupA (bfsInner d1 nbs dist queue).1 v with _ | n
  · rw [hv] at h; simp at h
  · rcases bfsInner_char d1 nbs dist queue v n hv with h' | ⟨hm, -, -⟩
    · exact Or.inl ((lookupA_isSome_iff _ _).mp (by simp [h']))
    · exact Or.inr hm

theorem bfsInner_queue (d1 : Nat) (nbs : List String) :
    ∀ (dist : List (String × Nat)) (queue : List String),
      ∃ new, (bfsInner d1 nbs dist queue).2 = queue ++ new ∧
        ∀ x ∈ new, lookupA (bfsInner d1 nbs dist queue).1 x = some d1 := by
  induction nbs with
  | nil => intro dist queue; exact ⟨[], by simp [bfsInner], by simp⟩
  | cons nb rest ih =>
    intro dist queue
    simp only [bfsInner]
    rcases hnb : lookupA dist nb with _ | d
    · obtain ⟨new', hq, hx⟩ := ih (setA dist nb d1) (queue ++ [nb])
      refine ⟨nb :: new', by rw [hq]; simp, ?_⟩
      intro x hxm
      rcases List.mem_cons.mp hxm with rfl | hxm'
      · exact bfsInner_preserve d1 rest _ _ x d1 (lookupA_setA_self _ _ _)
      · exact hx x hxm'
    · exact ih dist queue

theorem bfsInner_fresh_mem (d1 : Nat) (nbs : List String) :
    ∀ (dist : List (String × Nat)) (queue : List String) (nb : String),
      nb ∈ nbs → lookupA dist nb = none → nb ∈ (bfsInner d1 nbs dist queue).2 := by
  induction nbs with
  | nil => intro dist queue nb h; exact absurd h (List.not_mem_nil _)
  | cons nb0 rest ih =>
    intro dist queue nb hmem hnone
    simp only [bfsInner]
    rcases hnb0 : lookupA dist nb0 with _ | d
    · by_cases heq : nb = nb0
      · subst heq
        obtain ⟨new', hq, -⟩ := bfsInner_queue d1 rest (setA dist nb d1) (queue ++ [nb])
        rw [hq]
        simp
      · rcases List.mem_cons.mp hmem with rfl | hmem'
        · exact absurd rfl heq
        · exact ih _ _ nb hmem' (by rw [lookupA_setA_ne _ _ _ _ heq]; exact hnone)
    · rcases List.mem_cons.mp hmem with rfl | hmem'
      · rw [hnone] at hnb0; exact Option.noConfusion hnb0
      · exact ih _ _ nb hmem' hnone

theorem bfsInner_len (d1 : Nat) (nbs : List String) :
    ∀ (dist : List (String × Nat)) (queue : List String),
      (bfsInner d1 nbs dist queue).1.length + queue.length =
        dist.length + (bfsInner d1 nbs dist queue).2.length := by
  induction nbs with
  | nil => intro dist queue; simp [bfsInner]
  | cons nb rest ih =>
    intro dist queue
    simp only [bfsInner]
    rcases hnb : lookupA dist nb with _ | d
    · have hlen : (setA dist nb d1).length = dist.length + 1 := by
        rw [setA_of_not_mem _ ((lookupA_eq_none_iff _ _).mp hnb)]
        simp
      have := ih (setA dist nb d1) (queue ++ [nb])
      simp only [hlen, List.length_append, List.length_cons, List.length_nil] at this ⊢
      omega
    · exact ih dist queue

theorem bfsInner_keys_mono (d1 : Nat) (nbs : List String) (dist : List (String × Nat))
    (queue : List String) (v : String) (h : v ∈ dist.map Prod.fst) :
    v ∈ (bfsInner d1 nbs dist queue).1.map Prod.fst := by
  rw [← lookupA_isSome_iff] at h ⊢
  rcases hv : lookupA dist v with _ | n
  · rw [hv] at h; simp at h
  · have := bfsInner_preserve d1 nbs dist queue v n hv
    simp [this]

/-- The worklist invariant of `bfs`: duplicate-free recorded distances, all
recorded nodes inside the finite universe, the start recorded, every record
a true minimum distance, every processed node fully expanded, and the queue
holding (in order) nodes of two consecutive BFS levels. -/
structure BfsInv (adj : List (String × List String)) (s : String)
    (dist : List (String × Nat)) (queue : List String) : Prop where
  nodupKeys : (dist.map Prod.fst).Nodup
  keysSub : ∀ v ∈ dist.map Prod.fst, v = s ∨ v ∈ (adj.map Prod.snd).flatten
  startMem : s ∈ dist.map Prod.fst
  sound : ∀ v n, lookupA dist v = some n → IsMinDist adj s v n
  closed : ∀ u, u ∈ dist.map Prod.fst → u ∉ queue →
    ∀ v, v ∈ (lookupA adj u).getD [] → v ∈ dist.map Prod.fst
  levels : ∃ d a b, queue.map (fun q => lookupA dist q) =
    List.replicate a (some d) ++ List.replicate b (some (d + 1))

theorem BfsInv.len_le {adj : List (String × List String)} {s : String}
    {dist : List (String × Nat)} {queue : List String} (inv : BfsInv adj s dist queue) :
    dist.length ≤ (adj.map Prod.snd).flatten.length + 1 := by
  have h2 : dist.map Prod.fst ⊆ s :: (adj.map Prod.snd).flatten := by
    intro v hv
    rcases inv.keysSub v hv with rfl | h
    · exact List.mem_cons_self _ _
    · exact List.mem_cons_of_mem _ h
  have h3 := (List.subperm_of_subset inv.nodupKeys h2).length_le
  simpa using h3

/-- If a node `w` is reachable but not yet recorded, then the queue holds a
recorded node lying strictly closer to the start than `w`. -/
theorem bfs_crossing (adj : List (String × List String)) (s : String)
    (dist : List (String × Nat)) (queue : List String)
    (hstart : s ∈ dist.map Prod.fst)
    (hclosed : ∀ u, u ∈ dist.map Prod.fst → u ∉ queue →
      ∀ v, v ∈ (lookupA adj u).getD [] → v ∈ dist.map Prod.fst)
    (hsound : ∀ v n, lookupA dist v = some n → IsMinDist adj s v n) :
    ∀ (w : String) (m : Nat), PathN adj s w m → w ∉ dist.map Prod.fst →
      ∃ u du, u ∈ queue ∧ lookupA dist u = some du ∧ du + 1 ≤ m := by
  intro w m hp
  induction hp with
  | refl => intro hw; exact absurd hstart hw
  | @step u v n hp' hmem ih =>
    intro hv
    by_cases hu : u ∈ dist.map Prod.fst
    · have huq : u ∈ queue := by
        by_contra huq
        exact hv (hclosed u hu huq v hmem)
      rcases hlu : lookupA dist u with _ | du
      · rw [← lookupA_isSome_iff] at hu
        rw [hlu] at hu
        simp at hu
      · have hmin := hsound u du hlu
        have := hmin.2 n hp'
        exact ⟨u, du, huq, hlu, by omega⟩
    · obtain ⟨u', du', hq, hl, hle⟩ := ih hu
      exact ⟨u', du', hq, hl, by omega⟩

theorem reachable_mem_keys (adj : List (String × List String)) (s : String)
    (dist : List (String × Nat)) (hstart : s ∈ dist.map Prod.fst)
    (hclosed : ∀ u, u ∈ dist.map Prod.fst →
      ∀ v, v ∈ (lookupA adj u).getD [] → v ∈ dist.map Prod.fst) :
    ∀ (w : String) (m : Nat), PathN adj s w m → w ∈ dist.map Prod.fst := by
  intro w m hp
  induction hp with
  | refl => exact hstart
  | @step u v n hp' hmem ih => exact hclosed u ih v hmem

/-- Splitting the two-level queue shape at its head. -/
theorem levels_cons {dist : List (String × Nat)} {current : String} {rest : List String}
    (h : ∃ d a b, (current :: rest).map (fun q => lookupA dist q) =
      List.replicate a (some d) ++ List.replicate b (some (d + 1))) :
    ∃ dc, lookupA dist current = some dc ∧
      (∃ a' b', rest.map (fun q => lookupA dist q) =
        List.replicate a' (some dc) ++ List.replicate b' (some (dc + 1))) ∧
      (∀ q ∈ rest, ∃ dq, lookupA dist q = some dq ∧ dc ≤ dq) := by
  obtain ⟨d, a, b, h⟩ := h
  rcases a with _ | a0
  · rcases b with _ | b0
    · simp at h
    · rw [List.replicate_zero, List.nil_append, List.replicate_succ, List.map_cons] at h
      rw [List.cons.injEq] at h
      refine ⟨d + 1, h.1, ⟨b0, 0, by rw [h.2]; simp⟩, ?_⟩
      intro q hq
      have hmm : lookupA dist q ∈ List.replicate b0 (some (d + 1)) := by
        rw [← h.2]
        exact List.mem_map_of_mem _ hq
      exact ⟨d + 1, List.eq_of_mem_replicate hmm, Nat.le_refl _⟩
  · rw [List.replicate_succ, List.cons_append, List.map_cons, List.cons.injEq] at h
    refine ⟨d, h.1, ⟨a0, b, h.2⟩, ?_⟩
    intro q hq
    have hmm : lookupA dist q ∈
        List.replicate a0 (some d) ++ List.replicate b (some (d + 1)) := by
      rw [← h.2]
      exact List.mem_map_of_mem _ hq
    rcases List.mem_append.mp hmm with hmm' | hmm'
    · exact ⟨d, List.eq_of_mem_replicate hmm', Nat.le_refl _⟩
    · exact ⟨d + 1, List.eq_of_mem_replicate hmm', Nat.le_succ _⟩

theorem bfsAux_inv (adj : List (String × List String)) (s : String) :
    ∀ (fuel : Nat) (dist : List (String × Nat)) (queue : List String),
      BfsInv adj s dist queue →
      queue.length + ((adj.map Prod.snd).flatten.length + 1 - dist.length) ≤ fuel →
      BfsInv adj s (bfsAux adj fuel dist queue) [] := by
  intro fuel
  induction fuel with
  | zero =>
    intro dist queue inv hf
    have hq : queue = [] := List.length_eq_zero.mp (by omega)
    subst hq
    exact inv
  | succ fuel ih =>
    intro dist queue inv hf
    rcases queue with _ | ⟨current, rest⟩
    · exact inv
    · obtain ⟨dc, hcur, ⟨a', b', hrest⟩, hge⟩ := levels_cons inv.levels
      rcases hadj : lookupA adj current with _ | nbs
      · have hstep : bfsAux adj (fuel + 1) dist (current :: rest) = bfsAux adj fuel dist rest := by
          rw [bfsAux, hadj]
        rw [hstep]
        apply ih
        · refine ⟨inv.nodupKeys, inv.keysSub, inv.startMem, inv.sound, ?_, dc, a', b', hrest⟩
          intro u hu huq v hv
          by_cases huc : u = current
          · subst huc
            rw [hadj] at hv
            simp at hv
          · have hnc : u ∉ current :: rest := by
              intro hmc
              rcases List.mem_cons.mp hmc with h | h
              · exact huc h
              · exact huq h
            exact inv.closed u hu hnc v hv
        · simp only [List.length_cons] at hf
          omega
      · have hstep : bfsAux adj (fuel + 1) dist (current :: rest) =
            bfsAux adj fuel (bfsInner (dc + 1) nbs dist rest).1
              (bfsInner (dc + 1) nbs dist rest).2 := by
          rw [bfsAux, hadj, hcur]
        rw [hstep]
        have hnbs_get : (lookupA adj current).getD [] = nbs := by rw [hadj]; rfl
        have hmin_cur : IsMinDist adj s current dc := inv.sound current dc hcur
        have H : ∀ nb, nb ∈ nbs → lookupA dist nb = none → IsMinDist adj s nb (dc + 1) := by
          intro nb hmem hnone
          refine ⟨PathN.step hmin_cur.1 (by rw [hnbs_get]; exact hmem), ?_⟩
          intro m hm
          have hnotk : nb ∉ dist.map Prod.fst := by
            rw [← lookupA_isSome_iff, hnone]
            simp
          obtain ⟨u, du, huq, hlu, hle⟩ := bfs_crossing adj s dist (current :: rest)
            inv.startMem inv.closed inv.sound nb m hm hnotk
          have hdu : dc ≤ du := by
            rcases List.mem_cons.mp huq with rfl | hur
            · rw [hcur] at hlu
              have := Option.some.inj hlu
              omega
            · obtain ⟨dq, hq1, hq2⟩ := hge u hur
              rw [hlu] at hq1
              have := Option.some.inj hq1
              omega
          omega
        obtain ⟨newq, hq2, hnewval⟩ := bfsInner_queue (dc + 1) nbs dist rest
        have inv' : BfsInv adj s (bfsInner (dc + 1) nbs dist rest).1
            (bfsInner (dc + 1) nbs dist rest).2 := by
          constructor
          · exact bfsInner_nodup _ _ _ _ inv.nodupKeys
          · intro v hv
            rcases bfsInner_sub _ _ _ _ v hv with h | h
            · exact inv.keysSub v h
            · refine Or.inr (List.mem_flatten.mpr ⟨nbs, ?_, h⟩)
              exact List.mem_map.mpr ⟨(current, nbs), mem_of_lookupA_eq_some hadj, rfl⟩
          · exact bfsInner_keys_mono _ _ _ _ s inv.startMem
          · intro v n hv
            rcases bfsInner_char _ _ _ _ v n hv with h | ⟨hm, hnone, rfl⟩
            · exact inv.sound v n h
            · exact H v hm hnone
          · intro u hu huq' v hv
            by_cases huk : u ∈ dist.map Prod.fst
            · by_cases huc : u = current
              · subst huc
                rw [hnbs_get] at hv
                exact bfsInner_cover _ _ _ _ v hv
              · have hur : u ∉ rest := by
                  intro hr
                  exact huq' (by rw [hq2]; exact List.mem_append.mpr (Or.inl hr))
                have hnc : u ∉ current :: rest := by
                  intro hmc
                  rcases List.mem_cons.mp hmc with h | h
                  · exact huc h
                  · exact hur h
                exact bfsInner_keys_mono _ _ _ _ v (inv.closed u huk hnc v hv)
            · rcases bfsInner_sub _ _ _ _ u hu with h | h
              · exact absurd h huk
              · have hnone : lookupA dist u = none := (lookupA_eq_none_iff _ _).mpr huk
                exact absurd (bfsInner_fresh_mem _ _ _ _ u h hnone) huq'
          · refine ⟨dc, a', b' + newq.length, ?_⟩
            rw [hq2, List.map_append]
            have hrest' : rest.map (fun q => lookupA (bfsInner (dc + 1) nbs dist rest).1 q) =
                rest.map (fun q => lookupA dist q) := by
              apply List.map_congr_left
              intro q hq
              obtain ⟨dq, hq1, -⟩ := hge q hq
              rw [hq1]
              exact bfsInner_preserve _ _ _ _ q dq hq1
            have hnew' : newq.map (fun q => lookupA (bfsInner (dc + 1) nbs dist rest).1 q) =
                List.replicate newq.length (some (dc + 1)) := by
              have hl : (newq.map
                  (fun q => lookupA (bfsInner (dc + 1) nbs dist rest).1 q)).length =
                  newq.length := List.length_map _ _
              rw [← hl]
              apply List.eq_replicate_of_mem
              intro y hy
              obtain ⟨x, hx, rfl⟩ := List.mem_map.mp hy
              exact hnewval x hx
            rw [hrest', hnew', hrest, List.replicate_add, List.append_assoc]
        apply ih _ _ inv'
        have hlen := bfsInner_len (dc + 1) nbs dist rest
        have hK := inv'.len_le
        have hq2len : (bfsInner (dc + 1) nbs dist rest).2.length =
            rest.length + newq.length := by
          rw [hq2]
          simp
        simp only [List.length_cons] at hf
        omega

theorem bfs_inv_final (g : GameGraph) (s : String) : BfsInv g.adjList s (g.bfs s) [] := by
  have inv0 : BfsInv g.adjList s [(s, 0)] [s] := by
    constructor
    · simp
    · intro v hv
      simp at hv
      exact Or.inl hv
    · simp
    · intro v n hv
      by_cases hsv : s = v
      · subst hsv
        rw [lookupA, if_pos rfl] at hv
        have hn : n = 0 := (Option.some.inj hv).symm
        subst hn
        exact ⟨PathN.refl, fun m _ => Nat.zero_le m⟩
      · rw [lookupA, if_neg hsv] at hv
        exact absurd hv (by simp [lookupA])
    · intro u hu huq
      simp at hu huq
      exact absurd hu huq
    · refine ⟨0, 1, 0, ?_⟩
      simp [lookupA]
  have hjl : (g.adjList.map Prod.snd).flatten.length = totalNbLen g.adjList := by
    rw [List.length_flatten]
    simp only [totalNbLen, List.map_map]
    rfl
  have hb : [s].length + ((g.adjList.map Prod.snd).flatten.length + 1 - [(s, 0)].length) ≤
      totalNbLen g.adjList + 1 := by
    simp only [List.length_singleton, List.length_cons, List.length_nil, hjl]
    omega
  exact bfsAux_inv g.adjList s (totalNbLen g.adjList + 1) [(s, 0)] [s] inv0 hb

/-- Claim C4: for every graph and every start node in the graph, `bfs`
returns a mapping whose keys are exactly the nodes reachable from the start
(each recorded value is a true minimum edge-count distance, and every
reachable node is recorded); in particular the chain A–B–C–D from A yields
{A:0, B:1, C:2, D:3}. -/
theorem bfs_exact_min_distances :
    (∀ (g : GameGraph) (s : String), s ∈ g.nodes →
      ∀ v n, lookupA (g.bfs s) v = some n ↔ IsMinDist g.adjList s v n) ∧
    chainGraph.bfs "A" = [("A", 0), ("B", 1), ("C", 2), ("D", 3)] := by
  constructor
  · intro g s _ v n
    have inv := bfs_inv_final g s
    constructor
    · exact fun h => inv.sound v n h
    · rintro ⟨hpath, hmin⟩
      have hmem : v ∈ (g.bfs s).map Prod.fst :=
        reachable_mem_keys g.adjList s (g.bfs s) inv.startMem
          (fun u hu => inv.closed u hu (List.not_mem_nil u)) v n hpath
      rw [← lookupA_isSome_iff] at hmem
      rcases hv : lookupA (g.bfs s) v with _ | n'
      · rw [hv] at hmem
        simp at hmem
      · have hmin' := inv.sound v n' hv
        have hnn' : n = n' := Nat.le_antisymm (hmin n' hmin'.1) (hmin'.2 n hpath)
        rw [hnn']
  · decide

/-- Witness for C4 at the chain graph: the returned distance 2 for node C is
provably the minimum path length. -/
theorem bfs_exact_min_distances_witness :
    "A" ∈ chainGraph.nodes ∧ IsMinDist chainGraph.adjList "A" "C" 2 :=
  ⟨by decide,
    (bfs_exact_min_distances.1 chainGraph "A" (by decide) "C" 2).mp (by decide)⟩

end DS210
